import Mathlib

/-!
Verification of the adaptive goal agent simulation.

The repository has two layers:
* an engine (`createAgent` / `advanceAgent` in `lib/agent`) — the plan
  synthesizer and step advancer; its source is not part of the checked
  sources, so it is modelled here faithfully from the design document;
* a driver page (`app/page.tsx`) — launch handling, constraint splitting
  and the current-focus selector; these are embedded from the source.

Machine integers do not occur; counters are `Nat`, statuses and text are
`String`, wall-clock time is modelled by a logical clock (the iteration
counter), and the pseudo-random outcome policy of the advancer is
instantiated by the deterministic attempt-threshold policy the design
document allows ("the decision to complete versus continue may depend on
`attempts` reaching a small threshold").
-/

/-- Modelled from the spec (Data Model, Step): one unit of the plan, with a
stable id, static title/description/kind, a status among `pending`,
`in-progress`, `completed`, an attempt counter and append-only notes. -/
structure AgentStep where
  id : String
  title : String
  description : String
  kind : String
  status : String
  attempts : Nat
  notes : List String

/-- Modelled from the spec (Data Model, KnowledgeBanks): six named ordered
sequences of strings. -/
structure KnowledgeBanks where
  focusAreas : List String
  requirements : List String
  strategy : List String
  mitigations : List String
  evidence : List String
  insights : List String

/-- Modelled from the spec (Data Model, Event): one timeline entry. The
timestamp is a logical clock value (the spec's wall-clock instant,
modelled deterministically so that the engine stays a pure function). -/
structure AgentEvent where
  id : String
  timestamp : Nat
  type : String
  message : String

/-- Modelled from the spec (Data Model, AgentState): the complete
simulation snapshot. -/
structure AgentState where
  status : String
  iteration : Nat
  plan : List AgentStep
  knowledge : KnowledgeBanks
  events : List AgentEvent

/-- A fresh, still `pending` step. -/
def mkStep (id title description kind : String) : AgentStep :=
  { id := id, title := title, description := description, kind := kind,
    status := "pending", attempts := 0, notes := [] }

/-- Modelled from the spec (Plan Synthesizer, missing `lib/agent` source):
`synthesize(goal, constraints)` derives a fixed plan — research, design,
build, validate, plus a mitigation step when constraints are non-empty —
with every step `pending` (activation of step 0 is the first advancer
call's job), empty knowledge banks, one seed `plan-created` event,
`iteration = 0` and `status = running`. -/
def createAgent (goal : String) (constraints : List String) : AgentState :=
  let base : List AgentStep :=
    [ mkStep "step-1" ("Research context for: " ++ goal)
        "Understand the goal and gather background." "research",
      mkStep "step-2" ("Design an approach for: " ++ goal)
        "Outline a strategy that satisfies the constraints." "design",
      mkStep "step-3" ("Build toward: " ++ goal)
        "Execute the core work of the plan." "build",
      mkStep "step-4" ("Validate the outcome of: " ++ goal)
        "Check the result against the goal." "validate" ]
  let plan : List AgentStep :=
    if constraints.isEmpty then base
    else base ++
      [ mkStep "step-5" "Mitigate constraint risks"
          ("Address " ++ toString constraints.length ++ " constraints.")
          "mitigate" ]
  { status := "running",
    iteration := 0,
    plan := plan,
    knowledge :=
      { focusAreas := [], requirements := [], strategy := [],
        mitigations := [], evidence := [], insights := [] },
    events :=
      [ { id := "event-0", timestamp := 0, type := "plan-created",
          message := "Plan created for goal: " ++ goal } ] }

/-- Modelled from the spec: the per-step attempt cap ("cap attempts,
e.g. 2-4, after which completion is forced"). -/
def maxAttemptsPerStep : Nat := 3

/-- Split the plan into its maximal prefix of `completed` steps and the
remaining suffix, whose head (when it exists) is the active step — "the
first step with `status != completed`". -/
def splitCompleted : List AgentStep → List AgentStep × List AgentStep
  | [] => ([], [])
  | st :: tl =>
    if st.status = "completed" then
      let p := splitCompleted tl
      (st :: p.1, p.2)
    else ([], st :: tl)

/-- The note a progress outcome appends to the active step. -/
def progressNote (st : AgentStep) : String :=
  "Attempt " ++ toString (st.attempts + 1) ++ " advanced " ++ st.title

/-- Modelled from the spec: a progress outcome "conditionally update[s]
one knowledge bank whose selection is determined by the step's kind". -/
def addKnowledge (kind fragment : String) (k : KnowledgeBanks) : KnowledgeBanks :=
  if kind = "research" then
    { k with evidence := k.evidence ++ [fragment],
             insights := k.insights ++ [fragment] }
  else if kind = "design" then
    { k with focusAreas := k.focusAreas ++ [fragment],
             requirements := k.requirements ++ [fragment] }
  else if kind = "build" then
    { k with strategy := k.strategy ++ [fragment] }
  else if kind = "mitigate" then
    { k with mitigations := k.mitigations ++ [fragment] }
  else
    { k with insights := k.insights ++ [fragment] }

/-- A fresh event appended by the advancer; its timestamp is the logical
clock after the call (`iteration + 1`), its id continues the run's
event numbering. -/
def mkEvent (s : AgentState) (offset : Nat) (ty msg : String) : AgentEvent :=
  { id := "event-" ++ toString (s.events.length + offset),
    timestamp := s.iteration + 1, type := ty, message := msg }

/-- Modelled from the spec (Step Advancer, missing `lib/agent` source):
`advance(state)` is a no-op on a non-`running` state; otherwise it finds
the active step (first non-`completed`), activates it when `pending`,
and when `in-progress` increments its attempts and either progresses
(below the attempt cap: note, knowledge update, `step-progressed` event)
or completes it (cap reached: `step-completed` event, and `success` plus
a `goal-achieved` event when it was the last step). The defensive branch
for a running state whose steps are all completed is "handled ... as
equivalent to completion". Every branch on a running state increments
`iteration` by 1 and only appends to `events`. -/
def advance (s : AgentState) : AgentState :=
  if s.status = "running" then
    match splitCompleted s.plan with
    | (_, []) =>
      { s with status := "success",
               iteration := s.iteration + 1,
               events := s.events ++
                 [mkEvent s 0 "goal-achieved" "Goal achieved."] }
    | (done, st :: tl) =>
      if st.status = "pending" then
        { s with
            plan := done ++ ({ st with status := "in-progress" } :: tl),
            iteration := s.iteration + 1,
            events := s.events ++
              [mkEvent s 0 "step-started" ("Started " ++ st.title)] }
      else if maxAttemptsPerStep ≤ st.attempts + 1 then
        let stDone : AgentStep :=
          { st with status := "completed", attempts := st.attempts + 1 }
        if tl.isEmpty then
          { s with
              status := "success",
              plan := done ++ (stDone :: tl),
              iteration := s.iteration + 1,
              events := s.events ++
                [mkEvent s 0 "step-completed" ("Completed " ++ st.title),
                 mkEvent s 1 "goal-achieved" "Goal achieved."] }
        else
          { s with
              plan := done ++ (stDone :: tl),
              iteration := s.iteration + 1,
              events := s.events ++
                [mkEvent s 0 "step-completed" ("Completed " ++ st.title)] }
      else
        let note := progressNote st
        { s with
            plan := done ++
              ({ st with attempts := st.attempts + 1,
                         notes := st.notes ++ [note] } :: tl),
            knowledge := addKnowledge st.kind note s.knowledge,
            iteration := s.iteration + 1,
            events := s.events ++
              [mkEvent s 0 "step-progressed" note] }
  else s

/-- The trimming of JavaScript `String.prototype.trim`, modelled
executably on the underlying character list: drop leading and trailing
whitespace. -/
def trimChars (l : List Char) : List Char :=
  ((l.dropWhile Char.isWhitespace).reverse.dropWhile Char.isWhitespace).reverse

/-- `trimStr s` models `s.trim()` of the source. -/
def trimStr (s : String) : String := String.mk (trimChars s.data)

/-- Reachable agent states: a synthesis result for a valid (non-blank)
goal, closed under advancement. -/
inductive Reachable : AgentState → Prop
  | init (goal : String) (constraints : List String)
      (h : trimStr goal ≠ "") : Reachable (createAgent goal constraints)
  | step (s : AgentState) (h : Reachable s) : Reachable (advance s)

/-! ### Basic lemmas about the advancer -/

lemma splitCompleted_append (l : List AgentStep) :
    (splitCompleted l).1 ++ (splitCompleted l).2 = l := by
  induction l with
  | nil => rfl
  | cons st tl ih =>
    unfold splitCompleted
    by_cases h : st.status = "completed"
    · simp [h, ih]
    · simp [h]

lemma splitCompleted_spec (done rest : List AgentStep)
    (hd : ∀ st ∈ done, st.status = "completed")
    (hr : ∀ st ∈ rest.take 1, st.status ≠ "completed") :
    splitCompleted (done ++ rest) = (done, rest) := by
  induction done with
  | nil =>
    cases rest with
    | nil => rfl
    | cons st tl =>
      have : st.status ≠ "completed" := hr st (by simp)
      simp [splitCompleted, this]
  | cons st tl ih =>
    have h1 : st.status = "completed" := hd st (by simp)
    have h2 : ∀ x ∈ tl, x.status = "completed" := fun x hx => hd x (by simp [hx])
    simp [splitCompleted, h1, ih h2]

lemma advance_plan_length (s : AgentState) :
    (advance s).plan.length = s.plan.length := by
  unfold advance
  by_cases h : s.status = "running"
  · rw [if_pos h]
    split
    · rename_i done heq
      rfl
    · rename_i done st tl heq
      have hlen : s.plan.length = done.length + (st :: tl).length := by
        conv_lhs => rw [← splitCompleted_append s.plan, heq]
        simp
      by_cases hp : st.status = "pending"
      · simp [hp, hlen]
      · by_cases hc : maxAttemptsPerStep ≤ st.attempts + 1
        · by_cases ht : tl.isEmpty <;> simp [hp, hc, ht, hlen]
        · simp [hp, hc, hlen]
  · rw [if_neg h]

lemma advance_events_append (s : AgentState) (h : s.status = "running") :
    ∃ l, l ≠ [] ∧ (∀ e ∈ l, e.timestamp = s.iteration + 1) ∧
      (advance s).events = s.events ++ l := by
  unfold advance
  rw [if_pos h]
  split
  · exact ⟨[mkEvent s 0 "goal-achieved" "Goal achieved."],
      by simp, by simp [mkEvent], rfl⟩
  · rename_i done st tl heq
    by_cases hp : st.status = "pending"
    · exact ⟨[mkEvent s 0 "step-started" ("Started " ++ st.title)],
        by simp, by simp [mkEvent], by simp [hp]⟩
    · by_cases hc : maxAttemptsPerStep ≤ st.attempts + 1
      · by_cases ht : tl.isEmpty
        · exact ⟨[mkEvent s 0 "step-completed" ("Completed " ++ st.title),
                  mkEvent s 1 "goal-achieved" "Goal achieved."],
            by simp, by simp [mkEvent], by simp [hp, hc, ht]⟩
        · exact ⟨[mkEvent s 0 "step-completed" ("Completed " ++ st.title)],
            by simp, by simp [mkEvent], by simp [hp, hc, ht]⟩
      · exact ⟨[mkEvent s 0 "step-progressed" (progressNote st)],
          by simp, by simp [mkEvent], by simp [hp, hc]⟩

lemma advance_iteration_succ (s : AgentState) (h : s.status = "running") :
    (advance s).iteration = s.iteration + 1 := by
  unfold advance
  rw [if_pos h]
  split
  · rfl
  · rename_i done st tl heq
    by_cases hp : st.status = "pending"
    · simp [hp]
    · by_cases hc : maxAttemptsPerStep ≤ st.attempts + 1
      · by_cases ht : tl.isEmpty <;> simp [hp, hc, ht]
      · simp [hp, hc]

/-- C1: advancing a state whose status is not `running` (in particular a
terminal `success` state) returns the state itself unchanged — a
defensive idempotent no-op, never an error. -/
theorem advance_nonrunning_noop (s : AgentState) (h : s.status ≠ "running") :
    advance s = s := by
  unfold advance
  rw [if_neg h]

/-- A concrete terminal state used to exercise the no-op theorem. -/
def terminalProbe : AgentState :=
  { status := "success", iteration := 5,
    plan := [mkStep "step-1" "t" "d" "research"],
    knowledge := { focusAreas := [], requirements := [], strategy := [],
                   mitigations := [], evidence := [], insights := [] },
    events := [] }

theorem advance_nonrunning_noop_witness :
    terminalProbe.status ≠ "running" ∧ advance terminalProbe = terminalProbe :=
  ⟨by decide, advance_nonrunning_noop terminalProbe (by decide)⟩

/-- C2: advancing a `running` state increments the iteration counter by
exactly one, whatever branch the advancer takes. -/
theorem advance_running_iteration (s : AgentState) (h : s.status = "running") :
    (advance s).iteration = s.iteration + 1 :=
  advance_iteration_succ s h

theorem advance_running_iteration_witness :
    (createAgent "Launch a beta" []).status = "running" ∧
    (advance (createAgent "Launch a beta" [])).iteration =
      (createAgent "Launch a beta" []).iteration + 1 :=
  ⟨rfl, advance_running_iteration (createAgent "Launch a beta" []) rfl⟩

/-! ### The reachable-state invariant -/

/-- The sequential-execution shape of a plan: a completed prefix, then
optionally an active head (`pending` or `in-progress`), then `pending`
steps only. -/
def PlanShape (plan : List AgentStep) : Prop :=
  ∃ done rest, plan = done ++ rest ∧
    (∀ st ∈ done, st.status = "completed") ∧
    (rest = [] ∨ ∃ st tl, rest = st :: tl ∧
      (st.status = "pending" ∨ st.status = "in-progress") ∧
      ∀ x ∈ tl, x.status = "pending")

/-- The invariant maintained by synthesis and advancement. -/
structure AgentInv (s : AgentState) : Prop where
  status_ok : s.status = "running" ∨ s.status = "success"
  success_iff : s.status = "success" ↔ ∀ st ∈ s.plan, st.status = "completed"
  shape : PlanShape s.plan
  plan_ne : s.plan ≠ []
  ts_le : ∀ e ∈ s.events, e.timestamp ≤ s.iteration
  ts_sorted : s.events.Pairwise (fun a b => a.timestamp ≤ b.timestamp)

lemma createAgent_plan_fresh (goal : String) (cs : List String) :
    ∀ st ∈ (createAgent goal cs).plan, st.status = "pending" ∧ st.attempts = 0 := by
  intro st hst
  by_cases h : cs.isEmpty
  · simp [createAgent, h, mkStep] at hst
    rcases hst with rfl | rfl | rfl | rfl <;> exact ⟨rfl, rfl⟩
  · simp [createAgent, h, mkStep] at hst
    rcases hst with rfl | rfl | rfl | rfl | rfl <;> exact ⟨rfl, rfl⟩

lemma createAgent_plan_ne (goal : String) (cs : List String) :
    (createAgent goal cs).plan ≠ [] := by
  by_cases h : cs.isEmpty <;> simp [createAgent, h]

lemma agentInv_createAgent (goal : String) (cs : List String) :
    AgentInv (createAgent goal cs) := by
  have hfresh := createAgent_plan_fresh goal cs
  have hne := createAgent_plan_ne goal cs
  obtain ⟨hd, tl, hcons⟩ := List.exists_cons_of_ne_nil hne
  refine ⟨Or.inl rfl, ?_, ?_, hne, ?_, ?_⟩
  · have hst0 : (createAgent goal cs).status = "running" := rfl
    constructor
    · intro habs
      rw [hst0] at habs
      exact absurd habs (by decide)
    · intro hall
      have h1 := (hfresh hd (by rw [hcons]; simp)).1
      have h2 := hall hd (by rw [hcons]; simp)
      rw [h1] at h2
      exact absurd h2 (by decide)
  · refine ⟨[], (createAgent goal cs).plan, by simp, by simp, Or.inr ?_⟩
    refine ⟨hd, tl, hcons, Or.inl (hfresh hd (by rw [hcons]; simp)).1, ?_⟩
    intro x hx
    exact (hfresh x (by rw [hcons]; simp [hx])).1
  · intro e he
    simp [createAgent] at he
    rw [he]
    exact Nat.zero_le _
  · simp [createAgent]

lemma ne_completed_of_active (st : AgentStep)
    (h : st.status = "pending" ∨ st.status = "in-progress") :
    st.status ≠ "completed" := by
  rcases h with h | h <;> rw [h] <;> decide

lemma pairwise_le_of_const (l : List AgentEvent) (n : Nat)
    (h : ∀ e ∈ l, e.timestamp = n) :
    l.Pairwise (fun a b => a.timestamp ≤ b.timestamp) := by
  induction l with
  | nil => exact List.Pairwise.nil
  | cons a t ih =>
    refine List.Pairwise.cons ?_ (ih fun e he => h e (by simp [he]))
    intro b hb
    rw [h a (by simp), h b (by simp [hb])]

lemma agentInv_events_advance (s : AgentState) (h : s.status = "running")
    (hle : ∀ e ∈ s.events, e.timestamp ≤ s.iteration)
    (hsor : s.events.Pairwise (fun a b => a.timestamp ≤ b.timestamp)) :
    (∀ e ∈ (advance s).events, e.timestamp ≤ (advance s).iteration) ∧
    (advance s).events.Pairwise (fun a b => a.timestamp ≤ b.timestamp) := by
  obtain ⟨l, hlne, hts, hev⟩ := advance_events_append s h
  rw [hev, advance_iteration_succ s h]
  constructor
  · intro e he
    rcases List.mem_append.mp he with h1 | h1
    · exact Nat.le_succ_of_le (hle e h1)
    · exact Nat.le_of_eq (hts e h1)
  · rw [List.pairwise_append]
    refine ⟨hsor, pairwise_le_of_const l (s.iteration + 1) hts, ?_⟩
    intro a ha b hb
    rw [hts b hb]
    exact Nat.le_succ_of_le (hle a ha)

lemma agentInv_advance (s : AgentState) (hs : AgentInv s) :
    AgentInv (advance s) := by
  by_cases h : s.status = "running"
  case neg => rw [advance_nonrunning_noop s h]; exact hs
  obtain ⟨done, rest, hplan, hdone, hrest⟩ := hs.shape
  have hev := agentInv_events_advance s h hs.ts_le hs.ts_sorted
  rcases hrest with rfl | ⟨st, tl, rfl, hact, htl⟩
  · exfalso
    have hsuc : s.status = "success" :=
      hs.success_iff.mpr (by rw [hplan]; simpa using hdone)
    rw [h] at hsuc
    exact absurd hsuc (by decide)
  · have hsplit : splitCompleted s.plan = (done, st :: tl) := by
      rw [hplan]
      refine splitCompleted_spec done (st :: tl) hdone ?_
      intro x hx
      simp at hx
      rw [hx]
      exact ne_completed_of_active st hact
    by_cases hp : st.status = "pending"
    · -- activation branch
      have hadv : advance s =
          { s with
              plan := done ++ ({ st with status := "in-progress" } :: tl),
              iteration := s.iteration + 1,
              events := s.events ++
                [mkEvent s 0 "step-started" ("Started " ++ st.title)] } := by
        unfold advance
        rw [if_pos h, hsplit]
        simp [hp]
      refine ⟨?_, ?_, ?_, ?_, hev.1, hev.2⟩
      · rw [hadv]; exact Or.inl h
      · rw [hadv]
        apply iff_of_false
        · show ¬s.status = "success"
          rw [h]; decide
        · intro hall
          have h1 := hall { st with status := "in-progress" } (by simp)
          simp at h1
      · rw [hadv]
        exact ⟨done, { st with status := "in-progress" } :: tl, rfl, hdone,
          Or.inr ⟨_, tl, rfl, Or.inr rfl, htl⟩⟩
      · rw [hadv]; simp
    · have hact2 : st.status = "in-progress" := hact.resolve_left hp
      by_cases hc : maxAttemptsPerStep ≤ st.attempts + 1
      · cases tl with
        | nil =>
          -- completion of the last step
          have hadv : advance s =
              { s with
                  status := "success",
                  plan := done ++
                    [{ st with status := "completed", attempts := st.attempts + 1 }],
                  iteration := s.iteration + 1,
                  events := s.events ++
                    [mkEvent s 0 "step-completed" ("Completed " ++ st.title),
                     mkEvent s 1 "goal-achieved" "Goal achieved."] } := by
            unfold advance
            rw [if_pos h, hsplit]
            simp [hp, hc]
          refine ⟨?_, ?_, ?_, ?_, hev.1, hev.2⟩
          · rw [hadv]; exact Or.inr rfl
          · rw [hadv]
            apply iff_of_true rfl
            intro x hx
            rcases List.mem_append.mp hx with h1 | h1
            · exact hdone x h1
            · simp at h1
              rw [h1]
          · rw [hadv]
            refine ⟨done ++
              [{ st with status := "completed", attempts := st.attempts + 1 }],
              [], by simp, ?_, Or.inl rfl⟩
            intro x hx
            rcases List.mem_append.mp hx with h1 | h1
            · exact hdone x h1
            · simp at h1
              rw [h1]
          · rw [hadv]; simp
        | cons x xs =>
          -- completion of a non-final step
          have hadv : advance s =
              { s with
                  plan := done ++
                    ({ st with status := "completed", attempts := st.attempts + 1 }
                      :: x :: xs),
                  iteration := s.iteration + 1,
                  events := s.events ++
                    [mkEvent s 0 "step-completed" ("Completed " ++ st.title)] } := by
            unfold advance
            rw [if_pos h, hsplit]
            simp [hp, hc]
          refine ⟨?_, ?_, ?_, ?_, hev.1, hev.2⟩
          · rw [hadv]; exact Or.inl h
          · rw [hadv]
            apply iff_of_false
            · show ¬s.status = "success"
              rw [h]; decide
            · intro hall
              have h1 := hall x (by simp)
              have h2 := htl x (by simp)
              rw [h2] at h1
              exact absurd h1 (by decide)
          · rw [hadv]
            refine ⟨done ++
              [{ st with status := "completed", attempts := st.attempts + 1 }],
              x :: xs, by simp, ?_,
              Or.inr ⟨x, xs, rfl, Or.inl (htl x (by simp)),
                fun y hy => htl y (by simp [hy])⟩⟩
            intro y hy
            rcases List.mem_append.mp hy with h1 | h1
            · exact hdone y h1
            · simp at h1
              rw [h1]
          · rw [hadv]; simp
      · -- progress branch
        have hadv : advance s =
            { s with
                plan := done ++
                  ({ st with attempts := st.attempts + 1,
                             notes := st.notes ++ [progressNote st] } :: tl),
                knowledge := addKnowledge st.kind (progressNote st) s.knowledge,
                iteration := s.iteration + 1,
                events := s.events ++
                  [mkEvent s 0 "step-progressed" (progressNote st)] } := by
          unfold advance
          rw [if_pos h, hsplit]
          simp [hp, hc]
        refine ⟨?_, ?_, ?_, ?_, hev.1, hev.2⟩
        · rw [hadv]; exact Or.inl h
        · rw [hadv]
          apply iff_of_false
          · show ¬s.status = "success"
            rw [h]; decide
          · intro hall
            have h1 := hall
              { st with attempts := st.attempts + 1,
                        notes := st.notes ++ [progressNote st] } (by simp)
            simp at h1
            rw [hact2] at h1
            exact absurd h1 (by decide)
        · rw [hadv]
          exact ⟨done, _ :: tl, rfl, hdone,
            Or.inr ⟨_, tl, rfl, Or.inr hact2, htl⟩⟩
        · rw [hadv]; simp

/-- Every reachable state satisfies the invariant. -/
lemma reachable_agentInv (s : AgentState) (h : Reachable s) : AgentInv s := by
  induction h with
  | init goal cs hg => exact agentInv_createAgent goal cs
  | step s hr ih => exact agentInv_advance s ih

/-! ### Claims about the synthesizer / advancer -/

/-- C3: for every valid (non-blank) goal and constraint list the
synthesized plan is non-empty, and advancement never changes the length
of the plan of a reachable state. -/
theorem plan_nonempty_and_length_fixed :
    (∀ goal constraints, trimStr goal ≠ "" →
      1 ≤ (createAgent goal constraints).plan.length) ∧
    (∀ s, Reachable s → (advance s).plan.length = s.plan.length) := by
  constructor
  · intro goal constraints _
    by_cases h : constraints.isEmpty <;> simp [createAgent, h]
  · intro s _
    exact advance_plan_length s

theorem plan_nonempty_and_length_fixed_witness :
    (trimStr "Launch a beta" ≠ "" ∧
      1 ≤ (createAgent "Launch a beta" ["six weeks"]).plan.length) ∧
    (Reachable (createAgent "Launch a beta" ["six weeks"]) ∧
      (advance (createAgent "Launch a beta" ["six weeks"])).plan.length =
        (createAgent "Launch a beta" ["six weeks"]).plan.length) :=
  ⟨⟨by decide,
    plan_nonempty_and_length_fixed.1 "Launch a beta" ["six weeks"] (by decide)⟩,
   ⟨Reachable.init "Launch a beta" ["six weeks"] (by decide),
    plan_nonempty_and_length_fixed.2 _
      (Reachable.init "Launch a beta" ["six weeks"] (by decide))⟩⟩

/-- C4: in every reachable state, the status is `success` exactly when
every step of the plan is `completed`. -/
theorem reachable_success_iff_all_completed (s : AgentState)
    (h : Reachable s) :
    s.status = "success" ↔ ∀ st ∈ s.plan, st.status = "completed" :=
  (reachable_agentInv s h).success_iff

theorem reachable_success_iff_all_completed_witness :
    Reachable (createAgent "Launch a beta" []) ∧
    ((createAgent "Launch a beta" []).status = "success" ↔
      ∀ st ∈ (createAgent "Launch a beta" []).plan,
        st.status = "completed") :=
  ⟨Reachable.init "Launch a beta" [] (by decide),
   reachable_success_iff_all_completed _
     (Reachable.init "Launch a beta" [] (by decide))⟩

lemma planShape_filter_le_one (plan : List AgentStep) (h : PlanShape plan) :
    (plan.filter (fun st => st.status == "in-progress")).length ≤ 1 := by
  obtain ⟨done, rest, rfl, hdone, hrest⟩ := h
  rw [List.filter_append]
  have hd0 : done.filter (fun st => st.status == "in-progress") = [] := by
    rw [List.filter_eq_nil_iff]
    intro a ha
    rw [hdone a ha]
    decide
  rw [hd0, List.nil_append]
  rcases hrest with rfl | ⟨st, tl, rfl, hact, htl⟩
  · simp
  · have ht0 : tl.filter (fun st => st.status == "in-progress") = [] := by
      rw [List.filter_eq_nil_iff]
      intro a ha
      rw [htl a ha]
      decide
    rw [List.filter_cons]
    by_cases hc : (st.status == "in-progress") = true <;> simp [hc, ht0]

/-- C5 (counterexample): the state returned by the synthesizer is
reachable and `running`, yet no step at all is `in-progress` — all steps
start `pending`, so "exactly one step in-progress" fails before the
first advancement call. -/
theorem single_active_step_counterexample :
    Reachable (createAgent "Launch a beta" ["Timeline limited to six weeks"]) ∧
    (createAgent "Launch a beta" ["Timeline limited to six weeks"]).status
      = "running" ∧
    ((createAgent "Launch a beta" ["Timeline limited to six weeks"]).plan.filter
      (fun st => st.status == "in-progress")).length = 0 :=
  ⟨Reachable.init "Launch a beta" ["Timeline limited to six weeks"] (by decide),
   rfl, by decide⟩

/-- C5 (amended): in every reachable `running` state at most one step is
`in-progress`, the plan splits into a `completed` prefix followed by an
optional active step (`pending` or `in-progress`) and then `pending`
steps only; and the synthesizer itself leaves every step `pending`. -/
theorem single_active_step_amended :
    (∀ s, Reachable s → s.status = "running" →
      (s.plan.filter (fun st => st.status == "in-progress")).length ≤ 1 ∧
        PlanShape s.plan) ∧
    (∀ goal constraints, ∀ st ∈ (createAgent goal constraints).plan,
      st.status = "pending") := by
  constructor
  · intro s hr _
    have hinv := reachable_agentInv s hr
    exact ⟨planShape_filter_le_one s.plan hinv.shape, hinv.shape⟩
  · intro goal constraints st hst
    exact (createAgent_plan_fresh goal constraints st hst).1

theorem single_active_step_amended_witness :
    (Reachable (createAgent "Launch a beta" []) ∧
      (createAgent "Launch a beta" []).status = "running" ∧
      ((createAgent "Launch a beta" []).plan.filter
        (fun st => st.status == "in-progress")).length ≤ 1 ∧
      PlanShape (createAgent "Launch a beta" []).plan) ∧
    (∀ st ∈ (createAgent "Launch a beta" []).plan, st.status = "pending") :=
  ⟨⟨Reachable.init "Launch a beta" [] (by decide), rfl,
    single_active_step_amended.1 _
      (Reachable.init "Launch a beta" [] (by decide)) rfl⟩,
   single_active_step_amended.2 "Launch a beta" []⟩

/-- C6: advancement only appends to the event log (the old log is a
prefix of the new one), and in every reachable state the event log is
sorted by non-decreasing timestamp. -/
theorem events_append_only_and_sorted :
    (∀ s, s.events <+: (advance s).events) ∧
    (∀ s, Reachable s →
      s.events.Pairwise (fun a b => a.timestamp ≤ b.timestamp)) := by
  constructor
  · intro s
    by_cases h : s.status = "running"
    · obtain ⟨l, -, -, hev⟩ := advance_events_append s h
      exact ⟨l, hev.symm⟩
    · rw [advance_nonrunning_noop s h]
  · intro s h
    exact (reachable_agentInv s h).ts_sorted

theorem events_append_only_and_sorted_witness :
    (createAgent "Launch a beta" []).events <+:
      (advance (createAgent "Launch a beta" [])).events ∧
    (Reachable (createAgent "Launch a beta" []) ∧
      (createAgent "Launch a beta" []).events.Pairwise
        (fun a b => a.timestamp ≤ b.timestamp)) :=
  ⟨events_append_only_and_sorted.1 (createAgent "Launch a beta" []),
   ⟨Reachable.init "Launch a beta" [] (by decide),
    events_append_only_and_sorted.2 _
      (Reachable.init "Launch a beta" [] (by decide))⟩⟩

/-! ### Bounded termination -/

lemma advance_activate (s : AgentState) (done : List AgentStep)
    (st : AgentStep) (tl : List AgentStep)
    (h : s.status = "running") (hplan : s.plan = done ++ st :: tl)
    (hdone : ∀ x ∈ done, x.status = "completed")
    (hp : st.status = "pending") :
    advance s =
      { s with
          plan := done ++ ({ st with status := "in-progress" } :: tl),
          iteration := s.iteration + 1,
          events := s.events ++
            [mkEvent s 0 "step-started" ("Started " ++ st.title)] } := by
  have hsplit : splitCompleted s.plan = (done, st :: tl) := by
    rw [hplan]
    refine splitCompleted_spec done (st :: tl) hdone ?_
    intro x hx
    simp at hx
    rw [hx, hp]
    decide
  unfold advance
  rw [if_pos h, hsplit]
  simp [hp]

lemma advance_progress (s : AgentState) (done : List AgentStep)
    (st : AgentStep) (tl : List AgentStep)
    (h : s.status = "running") (hplan : s.plan = done ++ st :: tl)
    (hdone : ∀ x ∈ done, x.status = "completed")
    (hip : st.status = "in-progress")
    (hc : ¬ maxAttemptsPerStep ≤ st.attempts + 1) :
    advance s =
      { s with
          plan := done ++
            ({ st with attempts := st.attempts + 1,
                       notes := st.notes ++ [progressNote st] } :: tl),
          knowledge := addKnowledge st.kind (progressNote st) s.knowledge,
          iteration := s.iteration + 1,
          events := s.events ++
            [mkEvent s 0 "step-progressed" (progressNote st)] } := by
  have hp : ¬ st.status = "pending" := by rw [hip]; decide
  have hsplit : splitCompleted s.plan = (done, st :: tl) := by
    rw [hplan]
    refine splitCompleted_spec done (st :: tl) hdone ?_
    intro x hx
    simp at hx
    rw [hx, hip]
    decide
  unfold advance
  rw [if_pos h, hsplit]
  simp [hp, hc]

lemma advance_complete (s : AgentState) (done : List AgentStep)
    (st : AgentStep) (tl : List AgentStep)
    (h : s.status = "running") (hplan : s.plan = done ++ st :: tl)
    (hdone : ∀ x ∈ done, x.status = "completed")
    (hip : st.status = "in-progress")
    (hc : maxAttemptsPerStep ≤ st.attempts + 1) :
    (advance s).plan = (done ++
        [{ st with status := "completed", attempts := st.attempts + 1 }]) ++ tl ∧
    (tl = [] → (advance s).status = "success") ∧
    (tl ≠ [] → (advance s).status = "running") := by
  have hp : ¬ st.status = "pending" := by rw [hip]; decide
  have hsplit : splitCompleted s.plan = (done, st :: tl) := by
    rw [hplan]
    refine splitCompleted_spec done (st :: tl) hdone ?_
    intro x hx
    simp at hx
    rw [hx, hip]
    decide
  unfold advance
  rw [if_pos h, hsplit]
  cases tl with
  | nil =>
    refine ⟨?_, fun _ => ?_, fun hne => absurd rfl hne⟩ <;> simp [hp, hc]
  | cons x xs =>
    refine ⟨?_, ?_, ?_⟩
    · simp [hp, hc]
    · intro hn
      cases hn
    · intro _
      simp [hp, hc, h]

lemma completes_head (s : AgentState) (done : List AgentStep)
    (st : AgentStep) (tl : List AgentStep)
    (h : s.status = "running") (hplan : s.plan = done ++ st :: tl)
    (hdone : ∀ x ∈ done, x.status = "completed")
    (hp : st.status = "pending") (ha : st.attempts = 0) :
    ∃ s' done',
      advance^[maxAttemptsPerStep + 1] s = s' ∧
      s'.plan = done' ++ tl ∧
      (∀ x ∈ done', x.status = "completed") ∧
      (tl = [] → s'.status = "success") ∧
      (tl ≠ [] → s'.status = "running") := by
  have h1 := advance_activate s done st tl h hplan hdone hp
  set stA : AgentStep := { st with status := "in-progress" }
  have hAat : stA.attempts = 0 := ha
  have hs1run : (advance s).status = "running" := by rw [h1]; exact h
  have hs1plan : (advance s).plan = done ++ stA :: tl := by rw [h1]
  have h2 := advance_progress (advance s) done stA tl hs1run hs1plan hdone rfl
    (by rw [hAat]; decide)
  set stB : AgentStep :=
    { stA with attempts := stA.attempts + 1,
               notes := stA.notes ++ [progressNote stA] }
  have hBat : stB.attempts = 1 := by
    show stA.attempts + 1 = 1
    rw [hAat]
  have hs2run : (advance (advance s)).status = "running" := by
    rw [h2]; exact hs1run
  have hs2plan : (advance (advance s)).plan = done ++ stB :: tl := by rw [h2]
  have h3 := advance_progress (advance (advance s)) done stB tl hs2run hs2plan
    hdone rfl (by rw [hBat]; decide)
  set stC : AgentStep :=
    { stB with attempts := stB.attempts + 1,
               notes := stB.notes ++ [progressNote stB] }
  have hCat : stC.attempts = 2 := by
    show stB.attempts + 1 = 2
    rw [hBat]
  have hs3run : (advance (advance (advance s))).status = "running" := by
    rw [h3]; exact hs2run
  have hs3plan : (advance (advance (advance s))).plan = done ++ stC :: tl := by
    rw [h3]
  have h4 := advance_complete (advance (advance (advance s))) done stC tl
    hs3run hs3plan hdone rfl (by rw [hCat]; decide)
  have hit : advance^[maxAttemptsPerStep + 1] s
      = advance (advance (advance (advance s))) := rfl
  refine ⟨advance^[maxAttemptsPerStep + 1] s,
    done ++ [{ stC with status := "completed", attempts := stC.attempts + 1 }],
    rfl, ?_, ?_, ?_, ?_⟩
  · rw [hit]
    exact h4.1
  · intro x hx
    rcases List.mem_append.mp hx with h5 | h5
    · exact hdone x h5
    · simp at h5
      rw [h5]
  · intro hnil
    rw [hit]
    exact h4.2.1 hnil
  · intro hne
    rw [hit]
    exact h4.2.2 hne

lemma finishPlan (rest : List AgentStep) :
    ∀ (s : AgentState) (done : List AgentStep),
      s.status = "running" → s.plan = done ++ rest →
      (∀ x ∈ done, x.status = "completed") →
      (∀ x ∈ rest, x.status = "pending" ∧ x.attempts = 0) →
      rest ≠ [] →
      (advance^[rest.length * (maxAttemptsPerStep + 1)] s).status
        = "success" := by
  induction rest with
  | nil =>
    intro s done _ _ _ _ hne
    exact absurd rfl hne
  | cons st tl ih =>
    intro s done h hplan hdone hfresh _
    obtain ⟨s', done', h4, hplan', hdone', hnil, hcons⟩ :=
      completes_head s done st tl h hplan hdone
        (hfresh st (by simp)).1 (hfresh st (by simp)).2
    cases tl with
    | nil =>
      have hlen : ([st] : List AgentStep).length * (maxAttemptsPerStep + 1)
          = maxAttemptsPerStep + 1 := by simp
      rw [hlen, h4]
      exact hnil rfl
    | cons x xs =>
      have hlen : (st :: x :: xs).length * (maxAttemptsPerStep + 1)
          = (x :: xs).length * (maxAttemptsPerStep + 1)
            + (maxAttemptsPerStep + 1) := by
        simp [Nat.succ_mul]
      rw [hlen, Function.iterate_add_apply, h4]
      exact ih s' done' (hcons (by simp)) hplan' hdone'
        (fun y hy => hfresh y (by simp [hy])) (by simp)

/-- C7 (counterexample): from the synthesizer result for the goal
"Launch a beta" with no constraints, `plan.length × maxAttemptsPerStep`
advancement calls (4 × 3 = 12) do NOT suffice to reach `success`: the
state is still `running` after 12 calls, because every step also
consumes one activation call on top of its capped attempts. -/
theorem bounded_termination_counterexample :
    trimStr "Launch a beta" ≠ "" ∧
    (createAgent "Launch a beta" []).plan.length * maxAttemptsPerStep = 12 ∧
    (advance^[12] (createAgent "Launch a beta" [])).status = "running" ∧
    ¬ (advance^[12] (createAgent "Launch a beta" [])).status = "success" := by
  refine ⟨by decide, by decide, ?_, ?_⟩
  · decide
  · decide

/-- C7 (amended): from every synthesizer result for a valid goal,
repeated advancement reaches `success` within
`plan.length × (maxAttemptsPerStep + 1)` calls — one activation call
plus at most `maxAttemptsPerStep` attempt calls per step. -/
theorem bounded_termination_amended (goal : String)
    (constraints : List String) (_h : trimStr goal ≠ "") :
    (advance^[(createAgent goal constraints).plan.length *
        (maxAttemptsPerStep + 1)] (createAgent goal constraints)).status
      = "success" := by
  refine finishPlan (createAgent goal constraints).plan
    (createAgent goal constraints) [] rfl (by simp) (by simp)
    (createAgent_plan_fresh goal constraints)
    (createAgent_plan_ne goal constraints)

theorem bounded_termination_amended_witness :
    trimStr "Launch a beta" ≠ "" ∧
    (advance^[(createAgent "Launch a beta" []).plan.length *
        (maxAttemptsPerStep + 1)] (createAgent "Launch a beta" [])).status
      = "success" :=
  ⟨by decide, bounded_termination_amended "Launch a beta" [] (by decide)⟩

/-! ### The driver page (`app/page.tsx`) -/

/-- `splitLines` models JavaScript `split("\n")` on the underlying
character list: every newline separates two (possibly empty) lines. -/
def splitLines : List Char → List (List Char)
  | [] => [[]]
  | c :: rest =>
    if c = '\n' then [] :: splitLines rest
    else
      match splitLines rest with
      | [] => [c] :: []
      | l :: ls => (c :: l) :: ls

/-- `splitStr s` models `s.split("\n")` of the source. -/
def splitStr (s : String) : List String := (splitLines s.data).map String.mk

/-- Embedded from `src/app/page.tsx` (`handleLaunch`): return without
creating an agent when the trimmed goal is empty (`if (!goal.trim())
return`); otherwise split the constraints input on newlines, trim each
line, drop the falsy (empty) lines, and launch the agent with them. -/
def handleLaunch (goal constraintsInput : String) : Option AgentState :=
  if trimStr goal = "" then none
  else
    some (createAgent goal
      (((splitStr constraintsInput).map trimStr).filter
        (fun line => !line.isEmpty)))

/-- Embedded from `src/app/page.tsx` (`canLaunch`): the launch button is
enabled exactly when `goal.trim().length > 0`. -/
def canLaunch (goal : String) : Bool := 0 < (trimStr goal).length

/-- The constraint preprocessing the spec describes for the driver:
split the user's multi-line text on newlines, trim each resulting line,
and drop the lines that are empty after trimming, preserving the order
of the remaining lines. -/
def splitTrimDropEmpty (input : String) : List String :=
  ((splitStr input).map trimStr).filter (fun line => !line.isEmpty)

/-- Embedded from `src/app/page.tsx` (`activeStep`): the current-focus
selector — the first `in-progress` step, falling back to the first
`pending` step. -/
def activeStep (plan : List AgentStep) : Option AgentStep :=
  match plan.find? (fun step => step.status == "in-progress") with
  | some st => some st
  | none => plan.find? (fun step => step.status == "pending")

/-- C8: for every non-blank goal, the constraints the driver passes to
the synthesizer are exactly the newline-split, trimmed, empty-dropped
lines of the user's multi-line input, in order. -/
theorem handleLaunch_constraints (goal input : String)
    (h : trimStr goal ≠ "") :
    handleLaunch goal input
      = some (createAgent goal (splitTrimDropEmpty input)) := by
  unfold handleLaunch splitTrimDropEmpty
  rw [if_neg h]

theorem handleLaunch_constraints_witness :
    trimStr "Launch a beta" ≠ "" ∧
    handleLaunch "Launch a beta" "  Timeline limited \n\n Data uncertain  "
      = some (createAgent "Launch a beta"
          (splitTrimDropEmpty "  Timeline limited \n\n Data uncertain  ")) :=
  ⟨by decide,
   handleLaunch_constraints "Launch a beta"
     "  Timeline limited \n\n Data uncertain  " (by decide)⟩

/-- C9: with a goal that is blank after trimming the launch handler
never invokes the synthesizer, and the launch action is disabled
exactly when the trimmed goal has length 0. -/
theorem blank_goal_never_launches (goal input : String) :
    (trimStr goal = "" → handleLaunch goal input = none) ∧
    (canLaunch goal = false ↔ (trimStr goal).length = 0) := by
  constructor
  · intro h
    unfold handleLaunch
    rw [if_pos h]
  · unfold canLaunch
    simp

theorem blank_goal_never_launches_witness :
    trimStr "  " = "" ∧ handleLaunch "  " "some constraint" = none ∧
    (canLaunch "  " = false ↔ (trimStr "  ").length = 0) :=
  ⟨by decide,
   (blank_goal_never_launches "  " "some constraint").1 (by decide),
   (blank_goal_never_launches "  " "some constraint").2⟩

lemma find?_first {α : Type} (p : α → Bool) :
    ∀ (l : List α) (a : α), l.find? p = some a →
      ∃ l1 l2, l = l1 ++ a :: l2 ∧ p a = true ∧ ∀ x ∈ l1, ¬ p x = true := by
  intro l
  induction l with
  | nil =>
    intro a h
    cases h
  | cons hd tl ih =>
    intro a h
    by_cases hp : p hd = true
    · rw [List.find?_cons_of_pos _ hp] at h
      obtain rfl : hd = a := by injection h
      exact ⟨[], tl, rfl, hp, by simp⟩
    · rw [List.find?_cons_of_neg _ (by simpa using hp)] at h
      obtain ⟨l1, l2, rfl, hpa, hl1⟩ := ih a h
      refine ⟨hd :: l1, l2, rfl, hpa, ?_⟩
      intro x hx
      rcases List.mem_cons.mp hx with rfl | hx2
      · exact hp
      · exact hl1 x hx2

/-- C10: over a plan whose step statuses are all among `pending`,
`in-progress`, `completed`, the page's current-focus selector returns
the first `in-progress` step when one exists, otherwise the first
`pending` step when one exists, and returns no step exactly when every
step of the plan is `completed`. -/
theorem activeStep_spec (plan : List AgentStep)
    (hval : ∀ st ∈ plan, st.status = "pending" ∨ st.status = "in-progress"
      ∨ st.status = "completed") :
    ((∃ st ∈ plan, st.status = "in-progress") →
      ∃ l1 st l2, plan = l1 ++ st :: l2 ∧ st.status = "in-progress" ∧
        (∀ x ∈ l1, x.status ≠ "in-progress") ∧ activeStep plan = some st) ∧
    ((∀ st ∈ plan, st.status ≠ "in-progress") →
      (∃ st ∈ plan, st.status = "pending") →
      ∃ l1 st l2, plan = l1 ++ st :: l2 ∧ st.status = "pending" ∧
        (∀ x ∈ l1, x.status ≠ "pending") ∧ activeStep plan = some st) ∧
    (activeStep plan = none ↔ ∀ st ∈ plan, st.status = "completed") := by
  refine ⟨?_, ?_, ?_⟩
  · intro hex
    have hsome : (plan.find? (fun step => step.status == "in-progress")).isSome := by
      refine List.find?_isSome.mpr ?_
      obtain ⟨st, hmem, hst⟩ := hex
      exact ⟨st, hmem, by simp [hst]⟩
    obtain ⟨st, hfind⟩ := Option.isSome_iff_exists.mp hsome
    obtain ⟨l1, l2, hdec, hpa, hl1⟩ := find?_first _ plan st hfind
    refine ⟨l1, st, l2, hdec, by simpa using hpa, ?_, ?_⟩
    · intro x hx
      have := hl1 x hx
      simpa using this
    · unfold activeStep
      rw [hfind]
  · intro hnone hex
    have hip : plan.find? (fun step => step.status == "in-progress") = none := by
      rw [List.find?_eq_none]
      intro x hx
      simpa using hnone x hx
    have hsome : (plan.find? (fun step => step.status == "pending")).isSome := by
      refine List.find?_isSome.mpr ?_
      obtain ⟨st, hmem, hst⟩ := hex
      exact ⟨st, hmem, by simp [hst]⟩
    obtain ⟨st, hfind⟩ := Option.isSome_iff_exists.mp hsome
    obtain ⟨l1, l2, hdec, hpa, hl1⟩ := find?_first _ plan st hfind
    refine ⟨l1, st, l2, hdec, by simpa using hpa, ?_, ?_⟩
    · intro x hx
      have := hl1 x hx
      simpa using this
    · unfold activeStep
      rw [hip, hfind]
  · constructor
    · intro hnone st hmem
      unfold activeStep at hnone
      rcases hfi : plan.find? (fun step => step.status == "in-progress") with _ | st'
      · rw [hfi] at hnone
        have hpend : plan.find? (fun step => step.status == "pending") = none := hnone
        have h1 : ¬ st.status = "in-progress" := by
          have := List.find?_eq_none.mp hfi st hmem
          simpa using this
        have h2 : ¬ st.status = "pending" := by
          have := List.find?_eq_none.mp hpend st hmem
          simpa using this
        rcases hval st hmem with h | h | h
        · exact absurd h h2
        · exact absurd h h1
        · exact h
      · rw [hfi] at hnone
        cases hnone
    · intro hall
      have hip : plan.find? (fun step => step.status == "in-progress") = none := by
        rw [List.find?_eq_none]
        intro x hx
        rw [hall x hx]
        decide
      have hpend : plan.find? (fun step => step.status == "pending") = none := by
        rw [List.find?_eq_none]
        intro x hx
        rw [hall x hx]
        decide
      unfold activeStep
      rw [hip, hpend]

theorem activeStep_spec_witness :
    (∀ st ∈ [mkStep "step-1" "t1" "d1" "research",
             mkStep "step-2" "t2" "d2" "build"],
      st.status = "pending" ∨ st.status = "in-progress"
        ∨ st.status = "completed") ∧
    ((∀ st ∈ [mkStep "step-1" "t1" "d1" "research",
              mkStep "step-2" "t2" "d2" "build"],
        st.status ≠ "in-progress") →
      (∃ st ∈ [mkStep "step-1" "t1" "d1" "research",
               mkStep "step-2" "t2" "d2" "build"],
        st.status = "pending") →
      ∃ l1 st l2,
        [mkStep "step-1" "t1" "d1" "research",
         mkStep "step-2" "t2" "d2" "build"] = l1 ++ st :: l2 ∧
        st.status = "pending" ∧ (∀ x ∈ l1, x.status ≠ "pending") ∧
        activeStep [mkStep "step-1" "t1" "d1" "research",
                    mkStep "step-2" "t2" "d2" "build"] = some st) :=
  ⟨by decide,
   (activeStep_spec
     [mkStep "step-1" "t1" "d1" "research",
      mkStep "step-2" "t2" "d2" "build"] (by decide)).2.1⟩
